import Mathlib

/-!
Verification of the Repository Context Assembly Engine (`src/ui/src/server.ts`)
against its specification.

The TypeScript source is shallowly embedded: the filesystem is a snapshot
function from absolute paths to optional file data (stat + content), the
process-wide token cache is a function from paths to optional cache entries
(mirroring a JS `Map` keyed by path), and external collaborators (the
tokenizer, the `glob` enumerator, the `promptcode` subprocess) are
parameters, as the spec designates them out-of-scope black boxes.
-/

/-! ## Token cache (`getTokenCountForFile`, `tokenCache`) -/

/-- A file's stat as used by the cache: `mtimeMs` and `size`
(`fs.stat` in the source). -/
structure Stat where
  mtimeMs : Int
  size : Nat
deriving DecidableEq

/-- A file in the snapshot: its stat and its full text content. -/
structure FileData where
  stat : Stat
  content : String
deriving DecidableEq

/-- Snapshot filesystem: `none` means the path cannot be stat'ed.
A stat'able file is readable (snapshot semantics; the source's
`fs.readFile` try/catch collapses onto the same `none`). -/
abbrev FileSystem := String → Option FileData

/-- `interface TokenCacheEntry` from the source: mtimeMs, size, tokens and
the encoding used for this tokenization. -/
structure TokenCacheEntry where
  mtimeMs : Int
  size : Nat
  tokens : Nat
  encoding : String
deriving DecidableEq

/-- `const tokenCache: Map<string, TokenCacheEntry>`: at most one entry per
absolute path, modelled as a function from the path to an optional entry. -/
abbrev TokenCache := String → Option TokenCacheEntry

/-- `tokenCache.set(key, entry)`: replace the whole record stored at `key`. -/
def cacheSet (c : TokenCache) (k : String) (v : TokenCacheEntry) : TokenCache :=
  fun k' => if k' = k then some v else c k'

/-- Result of one `getTokenCountForFile` call: the returned count, the cache
after the call, and whether the file was read / the tokenizer invoked. -/
structure TokenCountResult where
  tokens : Nat
  cache : TokenCache
  didRead : Bool
  didTokenize : Bool

/-- `getTokenCountForFile(fullPath, encoding, counter)` from the source:
stat the file (0 on failure); on a cache entry whose mtimeMs, size and
encoding all match, return the cached tokens with no read and no
tokenization; otherwise read, tokenize, and store a whole new entry. -/
def getTokenCountForFile (fs : FileSystem) (cache : TokenCache)
    (fullPath encoding : String) (counter : String → String → Nat) :
    TokenCountResult :=
  match fs fullPath with
  | none => ⟨0, cache, false, false⟩
  | some fd =>
    match cache fullPath with
    | some cached =>
      if cached.mtimeMs = fd.stat.mtimeMs ∧ cached.size = fd.stat.size ∧
          cached.encoding = encoding then
        ⟨cached.tokens, cache, false, false⟩
      else
        ⟨counter fd.content encoding,
         cacheSet cache fullPath
           ⟨fd.stat.mtimeMs, fd.stat.size, counter fd.content encoding, encoding⟩,
         true, true⟩
    | none =>
      ⟨counter fd.content encoding,
       cacheSet cache fullPath
         ⟨fd.stat.mtimeMs, fd.stat.size, counter fd.content encoding, encoding⟩,
       true, true⟩

/-- Looking up the path just stored yields the new entry. -/
theorem cacheSet_same (c : TokenCache) (k : String) (v : TokenCacheEntry) :
    cacheSet c k v k = some v := by
  simp [cacheSet]

/-- Storing at one path leaves every other path's entry unchanged. -/
theorem cacheSet_other (c : TokenCache) (k p : String) (v : TokenCacheEntry)
    (h : p ≠ k) : cacheSet c k v p = c p := by
  simp [cacheSet, h]

/-- Cache-hit equation for `getTokenCountForFile`. -/
theorem getTokenCountForFile_hit (fs : FileSystem) (cache : TokenCache)
    (fullPath encoding : String) (counter : String → String → Nat)
    (fd : FileData) (c : TokenCacheEntry)
    (hfd : fs fullPath = some fd) (hc : cache fullPath = some c)
    (hm : c.mtimeMs = fd.stat.mtimeMs) (hs : c.size = fd.stat.size)
    (he : c.encoding = encoding) :
    getTokenCountForFile fs cache fullPath encoding counter =
      ⟨c.tokens, cache, false, false⟩ := by
  simp only [getTokenCountForFile, hfd, hc]
  rw [if_pos ⟨hm, hs, he⟩]

/-- Cache-miss equation for `getTokenCountForFile`: absent or mismatched
entry forces read + tokenize + whole-record store. -/
theorem getTokenCountForFile_miss (fs : FileSystem) (cache : TokenCache)
    (fullPath encoding : String) (counter : String → String → Nat)
    (fd : FileData) (hfd : fs fullPath = some fd)
    (hmiss : ∀ c, cache fullPath = some c →
      ¬ (c.mtimeMs = fd.stat.mtimeMs ∧ c.size = fd.stat.size ∧
          c.encoding = encoding)) :
    getTokenCountForFile fs cache fullPath encoding counter =
      ⟨counter fd.content encoding,
       cacheSet cache fullPath
         ⟨fd.stat.mtimeMs, fd.stat.size, counter fd.content encoding, encoding⟩,
       true, true⟩ := by
  cases hc : cache fullPath with
  | none => simp only [getTokenCountForFile, hfd, hc]
  | some c =>
    simp only [getTokenCountForFile, hfd, hc]
    rw [if_neg (hmiss c hc)]

/-- C1: the token-count operation returns the cached count (no read, no
tokenization) iff a cache entry for the path matches the file's current
stat and the requested encoding; otherwise it reads, recomputes, and
replaces the entry for that path as a whole record, touching no other. -/
theorem getTokenCountForFile_cache_iff (fs : FileSystem) (cache : TokenCache)
    (fullPath encoding : String) (counter : String → String → Nat)
    (fd : FileData) (hfd : fs fullPath = some fd) :
    ((∃ c, cache fullPath = some c ∧ c.mtimeMs = fd.stat.mtimeMs ∧
        c.size = fd.stat.size ∧ c.encoding = encoding) →
      (getTokenCountForFile fs cache fullPath encoding counter).didRead = false ∧
      (getTokenCountForFile fs cache fullPath encoding counter).didTokenize = false ∧
      (∀ c, cache fullPath = some c →
        (getTokenCountForFile fs cache fullPath encoding counter).tokens = c.tokens) ∧
      (getTokenCountForFile fs cache fullPath encoding counter).cache = cache) ∧
    (¬ (∃ c, cache fullPath = some c ∧ c.mtimeMs = fd.stat.mtimeMs ∧
        c.size = fd.stat.size ∧ c.encoding = encoding) →
      (getTokenCountForFile fs cache fullPath encoding counter).didRead = true ∧
      (getTokenCountForFile fs cache fullPath encoding counter).didTokenize = true ∧
      (getTokenCountForFile fs cache fullPath encoding counter).tokens =
        counter fd.content encoding ∧
      (getTokenCountForFile fs cache fullPath encoding counter).cache fullPath =
        some ⟨fd.stat.mtimeMs, fd.stat.size, counter fd.content encoding, encoding⟩ ∧
      (∀ p, p ≠ fullPath →
        (getTokenCountForFile fs cache fullPath encoding counter).cache p = cache p)) := by
  constructor
  · rintro ⟨c, hc, hm, hs, he⟩
    rw [getTokenCountForFile_hit fs cache fullPath encoding counter fd c hfd hc hm hs he]
    exact ⟨rfl, rfl, fun c' hc' => by cases hc.symm.trans hc'; rfl, rfl⟩
  · intro hmiss
    have h := getTokenCountForFile_miss fs cache fullPath encoding counter fd hfd
      (fun c hc hcond => hmiss ⟨c, hc, hcond.1, hcond.2.1, hcond.2.2⟩)
    rw [h]
    exact ⟨rfl, rfl, rfl, cacheSet_same _ _ _,
      fun p hp => cacheSet_other _ _ _ _ hp⟩

/-- Concrete instantiation of `getTokenCountForFile_cache_iff`: a matching
entry for `/r/a.txt` is served from the cache. -/
theorem getTokenCountForFile_cache_iff_witness :
    (getTokenCountForFile
        (fun p => if p = "/r/a.txt" then some ⟨⟨5, 10⟩, "hello"⟩ else none)
        (fun p => if p = "/r/a.txt" then some ⟨5, 10, 42, "cl100k_base"⟩ else none)
        "/r/a.txt" "cl100k_base" (fun _ _ => 7)).tokens = 42 := by
  have h := (getTokenCountForFile_cache_iff
    (fun p => if p = "/r/a.txt" then some ⟨⟨5, 10⟩, "hello"⟩ else none)
    (fun p => if p = "/r/a.txt" then some ⟨5, 10, 42, "cl100k_base"⟩ else none)
    "/r/a.txt" "cl100k_base" (fun _ _ => 7)
    ⟨⟨5, 10⟩, "hello"⟩ rfl).1
    ⟨⟨5, 10, 42, "cl100k_base"⟩, rfl, rfl, rfl, rfl⟩
  exact h.2.2.1 ⟨5, 10, 42, "cl100k_base"⟩ rfl

/-- C10: the cache holds one entry per path; for an unchanged file with an
entry cached under encoding `e1`, a request under `e2 ≠ e1` recomputes and
replaces the entry with an `e2` entry, and the following request under `e1`
recomputes again — alternating encodings recompute every time. -/
theorem tokenCache_alternating_encodings (fs : FileSystem) (cache : TokenCache)
    (p e1 e2 : String) (counter : String → String → Nat)
    (fd : FileData) (c : TokenCacheEntry)
    (hfd : fs p = some fd) (hc : cache p = some c) (henc : c.encoding = e1)
    (hm : c.mtimeMs = fd.stat.mtimeMs) (hs : c.size = fd.stat.size)
    (hne : e2 ≠ e1) :
    (getTokenCountForFile fs cache p e2 counter).didTokenize = true ∧
    (getTokenCountForFile fs cache p e2 counter).cache p =
      some ⟨fd.stat.mtimeMs, fd.stat.size, counter fd.content e2, e2⟩ ∧
    (getTokenCountForFile fs
        (getTokenCountForFile fs cache p e2 counter).cache p e1 counter).didTokenize = true ∧
    (getTokenCountForFile fs
        (getTokenCountForFile fs cache p e2 counter).cache p e1 counter).cache p =
      some ⟨fd.stat.mtimeMs, fd.stat.size, counter fd.content e1, e1⟩ := by
  have h1 := getTokenCountForFile_miss fs cache p e2 counter fd hfd
    (fun c' hc' hcond => by
      cases hc.symm.trans hc'
      exact hne (hcond.2.2.symm.trans henc))
  have hc2 : (getTokenCountForFile fs cache p e2 counter).cache p =
      some ⟨fd.stat.mtimeMs, fd.stat.size, counter fd.content e2, e2⟩ := by
    rw [h1]
    exact cacheSet_same _ _ _
  have h2 := getTokenCountForFile_miss fs
    (getTokenCountForFile fs cache p e2 counter).cache p e1 counter fd hfd
    (fun c' hc' hcond => by
      rw [hc2] at hc'
      cases Option.some.inj hc'
      exact hne hcond.2.2)
  refine ⟨by rw [h1], hc2, by rw [h2], ?_⟩
  rw [h2]
  exact cacheSet_same _ _ _

/-- Concrete instantiation of `tokenCache_alternating_encodings` for
`/r/a.txt` cached under `cl100k_base` and re-requested under `o200k_base`. -/
theorem tokenCache_alternating_encodings_witness :
    (getTokenCountForFile
        (fun p => if p = "/r/a.txt" then some ⟨⟨5, 10⟩, "hello"⟩ else none)
        (fun p => if p = "/r/a.txt" then some ⟨5, 10, 42, "cl100k_base"⟩ else none)
        "/r/a.txt" "o200k_base" (fun _ _ => 7)).didTokenize = true := by
  exact (tokenCache_alternating_encodings
    (fun p => if p = "/r/a.txt" then some ⟨⟨5, 10⟩, "hello"⟩ else none)
    (fun p => if p = "/r/a.txt" then some ⟨5, 10, 42, "cl100k_base"⟩ else none)
    "/r/a.txt" "cl100k_base" "o200k_base" (fun _ _ => 7)
    ⟨⟨5, 10⟩, "hello"⟩ ⟨5, 10, 42, "cl100k_base"⟩
    rfl rfl rfl rfl rfl (by decide)).1

/-! ## File tree builder (`generateFileTree`, `formatFileTreeString`) -/

/-- The tree object built by `generateFileTree`: an ordered map from
directory-segment names to child nodes, plus the `_files` list of terminal
file names at this level (kept in a field of its own, as the source keeps
it under the reserved `_files` key). -/
inductive TreeNode where
  | node : List (String × TreeNode) → List String → TreeNode

/-- `{}` — the fresh empty node. -/
def emptyTree : TreeNode := .node [] []

/-- JS `file.split('/')`: split the path at every separator, keeping empty
segments, mirrored at the character-list level. -/
def splitSlash (s : String) : List String :=
  (s.data.splitOn '/').map String.mk

/-- `if (!current[part]) current[part] = {}; current = current[part]` over
the ordered children list: descend into an existing child, or append a
fresh one (JS object keys keep insertion order). -/
def updateChild (cs : List (String × TreeNode)) (d : String)
    (upd : TreeNode → TreeNode) : List (String × TreeNode) :=
  match cs with
  | [] => [(d, upd emptyTree)]
  | (n, c) :: rest =>
    if n = d then (n, upd c) :: rest else (n, c) :: updateChild rest d upd

/-- The `parts.forEach` walk of `generateFileTree` for one path: the last
segment is pushed onto `_files`, every earlier segment descends into (or
creates) a directory child. -/
def insertParts : List String → TreeNode → TreeNode
  | [], t => t
  | [f], .node cs fs => .node cs (fs ++ [f])
  | d :: rest, .node cs fs => .node (updateChild cs d (fun c => insertParts rest c)) fs

/-- `generateFileTree(files)` from the source: fold every path's segment
walk over the initially empty tree. -/
def generateFileTree (files : List String) : TreeNode :=
  files.foldl (fun t file => insertParts (splitSlash file) t) emptyTree

/-- Flattening a tree, as the round-trip property describes it: collect,
for each node, its directory children's flattened contents (each prefixed
with the child's name and `/`) and its terminal file names. -/
def flattenTree : TreeNode → List String
  | .node cs fs =>
    (cs.attach.flatMap
      (fun p => (flattenTree p.1.2).map (fun q => p.1.1 ++ "/" ++ q))) ++ fs
decreasing_by
  have h1 := List.sizeOf_lt_of_mem p.2
  have h2 : sizeOf p.1.2 < sizeOf p.1 := by
    obtain ⟨a, b⟩ := p.1
    simp
  simp only [TreeNode.node.sizeOf_spec]
  omega

/-- Joining path segments back with `/`. -/
def joinSegs : List String → String
  | [] => ""
  | [f] => f
  | d :: rest => d ++ "/" ++ joinSegs rest

/-- Unfolding equation for `flattenTree` without `attach`. -/
theorem flattenTree_node (cs : List (String × TreeNode)) (fs : List String) :
    flattenTree (.node cs fs) =
      (cs.flatMap fun p => (flattenTree p.2).map (fun q => p.1 ++ "/" ++ q)) ++ fs := by
  rw [flattenTree]
  congr 1
  rw [List.flatMap, List.flatMap, List.attach_map_val cs
    (fun p => (flattenTree p.2).map (fun q => p.1 ++ "/" ++ q))]

/-- The empty tree flattens to no paths. -/
theorem flattenTree_empty : flattenTree emptyTree = [] := by
  rw [emptyTree, flattenTree_node]
  rfl

/-- Updating one child of the ordered children list adds exactly the new
path contributed by the update, up to permutation of the flattened output. -/
theorem flatMap_updateChild (d : String) (upd : TreeNode → TreeNode)
    (x : String)
    (hupd : ∀ c, (flattenTree (upd c)).Perm (x :: flattenTree c)) :
    ∀ cs : List (String × TreeNode),
      ((updateChild cs d upd).flatMap
          (fun p => (flattenTree p.2).map (fun q => p.1 ++ "/" ++ q))).Perm
        ((d ++ "/" ++ x) ::
          cs.flatMap (fun p => (flattenTree p.2).map (fun q => p.1 ++ "/" ++ q)))
  | [] => by
    simp only [updateChild, List.flatMap_cons, List.flatMap_nil,
      List.append_nil]
    have h := (hupd emptyTree).map (fun q => d ++ "/" ++ q)
    rw [flattenTree_empty] at h
    simpa using h
  | (n, c) :: rest => by
    by_cases hnd : n = d
    · subst hnd
      simp only [updateChild, if_pos rfl, List.flatMap_cons]
      exact ((hupd c).map (fun q => n ++ "/" ++ q)).append_right _
    · simp only [updateChild, if_neg hnd, List.flatMap_cons]
      have ih := flatMap_updateChild d upd x hupd rest
      exact (ih.append_left _).trans List.perm_middle

/-- Inserting one path's segment walk into a tree adds exactly that path to
the flattened output, up to permutation. -/
theorem flattenTree_insertParts :
    ∀ (parts : List String) (t : TreeNode), parts ≠ [] →
      (flattenTree (insertParts parts t)).Perm (joinSegs parts :: flattenTree t)
  | [], _, h => absurd rfl h
  | [f], .node cs fs, _ => by
    simp only [insertParts, joinSegs, flattenTree_node]
    rw [← List.append_assoc]
    exact List.perm_append_singleton _ _
  | d :: r :: rs, .node cs fs, _ => by
    have hupd : ∀ c, (flattenTree (insertParts (r :: rs) c)).Perm
        (joinSegs (r :: rs) :: flattenTree c) :=
      fun c => flattenTree_insertParts (r :: rs) c (List.cons_ne_nil _ _)
    have h := (flatMap_updateChild d (fun c => insertParts (r :: rs) c)
      (joinSegs (r :: rs)) hupd cs).append_right fs
    simp only [insertParts, flattenTree_node]
    have hjoin : joinSegs (d :: r :: rs) = d ++ "/" ++ joinSegs (r :: rs) := rfl
    rw [hjoin]
    exact h.trans (by rw [List.cons_append])

/-- Building the tree from a path list and flattening it returns the paths
as joined by `joinSegs`, up to permutation. -/
theorem flattenTree_foldl :
    ∀ (files : List String) (t : TreeNode),
      (flattenTree (files.foldl (fun t file => insertParts (splitSlash file) t) t)).Perm
        (files.map (fun f => joinSegs (splitSlash f)) ++ flattenTree t)
  | [], t => by simp
  | f :: rest, t => by
    rw [List.foldl_cons]
    have hne : splitSlash f ≠ [] := by
      unfold splitSlash
      simp only [ne_eq, List.map_eq_nil_iff]
      exact fun h => List.splitOnP_ne_nil _ _ h
    have h1 := flattenTree_foldl rest (insertParts (splitSlash f) t)
    have h2 := (flattenTree_insertParts (splitSlash f) t hne).append_left
      (rest.map (fun f => joinSegs (splitSlash f)))
    exact (h1.trans h2).trans (by rw [List.map_cons, List.cons_append]; exact List.perm_middle)

/-- Appending strings appends their character lists. -/
theorem mk_append_mk (a b : List Char) :
    String.mk a ++ String.mk b = String.mk (a ++ b) := rfl

/-- `joinSegs` over segment strings is character-level intercalation. -/
theorem joinSegs_map_mk :
    ∀ ls : List (List Char), ls ≠ [] →
      joinSegs (ls.map String.mk) = String.mk (List.intercalate ['/'] ls)
  | [], h => absurd rfl h
  | [a], _ => by
    simp only [List.map_cons, List.map_nil, joinSegs, List.intercalate,
      List.intersperse_single, List.flatten_cons, List.flatten_nil,
      List.append_nil]
  | a :: b :: rest, _ => by
    have ih := joinSegs_map_mk (b :: rest) (List.cons_ne_nil _ _)
    have hj : joinSegs (String.mk a :: (b :: rest).map String.mk) =
        String.mk a ++ "/" ++ joinSegs ((b :: rest).map String.mk) := rfl
    rw [List.map_cons, hj, ih]
    have hs : ("/" : String) = String.mk ['/'] := rfl
    rw [hs, mk_append_mk, mk_append_mk]
    have hi : List.intercalate ['/'] (a :: b :: rest) =
        a ++ ['/'] ++ List.intercalate ['/'] (b :: rest) := by
      simp only [List.intercalate, List.intersperse_cons₂, List.flatten_cons,
        List.append_assoc]
    rw [hi]

/-- Joining the segments of a split path restores the path. -/
theorem joinSegs_splitSlash (s : String) : joinSegs (splitSlash s) = s := by
  have hne : s.data.splitOn '/' ≠ [] := fun h => List.splitOnP_ne_nil _ _ h
  have h := joinSegs_map_mk (s.data.splitOn '/') hne
  unfold splitSlash
  rw [h, List.intercalate_splitOn]

/-- C2: flattening the file tree built from a deduplicated path list
reproduces exactly that list — a permutation (set equality, no omissions)
with no duplicates, every path joined along its correct ancestor chain. -/
theorem generateFileTree_roundtrip (files : List String) (hnd : files.Nodup) :
    (flattenTree (generateFileTree files)).Perm files ∧
    (flattenTree (generateFileTree files)).Nodup := by
  have h := flattenTree_foldl files emptyTree
  rw [flattenTree_empty, List.append_nil] at h
  have hmap : files.map (fun f => joinSegs (splitSlash f)) = files := by
    rw [show (fun f => joinSegs (splitSlash f)) = id from funext joinSegs_splitSlash]
    exact List.map_id files
  rw [hmap] at h
  exact ⟨h, h.nodup_iff.mpr hnd⟩

/-- Concrete instantiation of `generateFileTree_roundtrip` on a small
repository layout. -/
theorem generateFileTree_roundtrip_witness :
    (flattenTree (generateFileTree ["README.md", "src/a.ts", "src/lib/b.ts"])).Perm
      ["README.md", "src/a.ts", "src/lib/b.ts"] :=
  (generateFileTree_roundtrip ["README.md", "src/a.ts", "src/lib/b.ts"]
    (by decide)).1

/-! ## Ignore resolver (`loadIgnorePatterns`) and discovery (`listFiles`) -/

/-- Component pattern of a slash-free ignore pattern: a literal name, or a
`*`-prefixed suffix wildcard such as `*.log`. -/
inductive SegPat where
  | lit : String → SegPat
  | star : String → SegPat
deriving DecidableEq

/-- One parsed ignore rule: negation flag (leading `!`), directory-only
flag (trailing `/`), and the component pattern. -/
structure IgnoreRule where
  negated : Bool
  dirOnly : Bool
  pat : SegPat
deriving DecidableEq

/-- Modelled from the spec: the `ignore` npm package (an external
collaborator) parses each pattern line; for the slash-free patterns the
server uses, a leading `!` negates, a trailing `/` restricts the pattern to
directories, and a leading `*` is a suffix wildcard. -/
def parseRule (s : String) : IgnoreRule :=
  let neg := ['!'].isPrefixOf s.data
  let s1 := if neg then String.mk (s.data.drop 1) else s
  let dirOnly := ['/'].isSuffixOf s1.data
  let s2 := if dirOnly then String.mk s1.data.dropLast else s1
  { negated := neg,
    dirOnly := dirOnly,
    pat := if ['*'].isPrefixOf s2.data then .star (String.mk (s2.data.drop 1))
           else .lit s2 }

/-- Whether a component pattern matches one path component. -/
def SegPat.matchesSeg : SegPat → String → Bool
  | .lit p, c => c = p
  | .star suf, c => suf.data.isSuffixOf c.data

/-- Modelled from the spec: gitignore matching of one rule against a file
path's components — a slash-free pattern matches at any depth, a matched
directory ignores everything below it, and a directory-only pattern cannot
match the terminal (file) component. -/
def ruleMatches (r : IgnoreRule) (segs : List String) : Bool :=
  if r.dirOnly then segs.dropLast.any r.pat.matchesSeg
  else segs.any r.pat.matchesSeg

/-- Modelled from the spec: `ig.ignores(path)` — patterns are evaluated in
order and the last matching pattern decides, a negated one re-including
the path; with no matching pattern the path is not ignored. -/
def ignores (rules : List IgnoreRule) (path : String) : Bool :=
  match (rules.filter (fun r => ruleMatches r (splitSlash path))).getLast? with
  | some r => !r.negated
  | none => false

/-- The built-in default pattern set added first by `loadIgnorePatterns`. -/
def defaultPatterns : List String :=
  ["node_modules/", ".git/", ".DS_Store", "*.log", "dist/", "build/",
   "coverage/", ".nyc_output/", "*.tmp", "*.temp", "__pycache__/", "*.pyc",
   ".pytest_cache/"]

/-- `loadIgnorePatterns()` from the source: the built-in defaults first,
then the repository's `.gitignore` lines (blank and comment lines are
inert), later patterns overriding earlier ones. -/
def loadIgnorePatterns (gitignoreLines : List String) : List IgnoreRule :=
  (defaultPatterns ++
    gitignoreLines.filter
      (fun l => !(l == "") && !(['#'].isPrefixOf l.data))).map parseRule

/-- `listFiles(patterns)` from the source, downstream of glob enumeration:
concatenate every pattern's matches, remove duplicates, drop paths the
resolved ignore rule set ignores, and sort lexicographically. -/
def listFiles (matchesPerPattern : List (List String))
    (gitignoreLines : List String) : List String :=
  ((matchesPerPattern.flatten).dedup.filter
    (fun f => !ignores (loadIgnorePatterns gitignoreLines) f)).mergeSort

/-- `listFiles` with the enumeration boundary included: each glob pattern
is enumerated by the external `glob` collaborator, which may throw; a
failing pattern is skipped and contributes nothing (`catch` + continue). -/
def listFilesE (globF : String → Except String (List String))
    (patterns : List String) (gitignoreLines : List String) : List String :=
  listFiles
    (patterns.map (fun p => match globF p with
      | .ok ms => ms
      | .error _ => []))
    gitignoreLines

/-- Membership in the discovery output: a path is listed iff some pattern
enumerated it and the resolved ignore rules do not ignore it. -/
theorem listFiles_mem (matchesPerPattern : List (List String))
    (gitignoreLines : List String) (f : String) :
    f ∈ listFiles matchesPerPattern gitignoreLines ↔
      (f ∈ matchesPerPattern.flatten ∧
        ignores (loadIgnorePatterns gitignoreLines) f = false) := by
  unfold listFiles
  rw [(List.mergeSort_perm _ _).mem_iff, List.mem_filter, List.mem_dedup]
  simp [Bool.not_eq_true']

/-- The discovery output has no duplicate paths. -/
theorem listFiles_nodup (matchesPerPattern : List (List String))
    (gitignoreLines : List String) :
    (listFiles matchesPerPattern gitignoreLines).Nodup := by
  unfold listFiles
  exact (List.mergeSort_perm _ _).nodup_iff.mpr
    ((List.nodup_dedup _).filter _)

/-- The discovery output is sorted lexicographically. -/
theorem listFiles_sorted (matchesPerPattern : List (List String))
    (gitignoreLines : List String) :
    List.Sorted (· ≤ ·) (listFiles matchesPerPattern gitignoreLines) := by
  unfold listFiles
  exact List.sorted_mergeSort' _

/-- C8: for every set of glob-enumeration results, discovery returns a
deduplicated list, sorted lexicographically by the full relative path
string, whose members are exactly the enumerated candidates that survive
the ignore matcher. -/
theorem listFiles_dedup_sorted_filtered (matchesPerPattern : List (List String))
    (gitignoreLines : List String) :
    (listFiles matchesPerPattern gitignoreLines).Nodup ∧
    List.Sorted (· ≤ ·) (listFiles matchesPerPattern gitignoreLines) ∧
    (∀ f, f ∈ listFiles matchesPerPattern gitignoreLines ↔
      (f ∈ matchesPerPattern.flatten ∧
        ignores (loadIgnorePatterns gitignoreLines) f = false)) :=
  ⟨listFiles_nodup matchesPerPattern gitignoreLines,
   listFiles_sorted matchesPerPattern gitignoreLines,
   fun f => listFiles_mem matchesPerPattern gitignoreLines f⟩

/-- Concrete instantiation of `listFiles_dedup_sorted_filtered`: duplicated,
unsorted glob output is deduplicated and each candidate's membership is
decided by the ignore rules. -/
theorem listFiles_dedup_sorted_filtered_witness :
    "a.txt" ∈ listFiles [["b.txt", "a.txt"], ["a.txt"]] [] ∧
    "debug.log" ∉ listFiles [["debug.log"], ["a.txt"]] [] := by
  constructor
  · exact ((listFiles_dedup_sorted_filtered [["b.txt", "a.txt"], ["a.txt"]] []).2.2
      "a.txt").mpr (by constructor <;> decide)
  · intro hmem
    have h := ((listFiles_dedup_sorted_filtered [["debug.log"], ["a.txt"]] []).2.2
      "debug.log").mp hmem
    have : ignores (loadIgnorePatterns []) "debug.log" = true := by decide
    rw [h.2] at this
    cases this

/-- C9: a glob pattern that fails during enumeration is skipped — every
non-failing pattern still contributes its matches — and if every pattern
fails the discovery result is the empty list (a normal return, never an
error). -/
theorem listFilesE_failure_policy (globF : String → Except String (List String))
    (patterns : List String) (gitignoreLines : List String) :
    ((∀ p ∈ patterns, ∃ e, globF p = .error e) →
      listFilesE globF patterns gitignoreLines = []) ∧
    (∀ p ms f, p ∈ patterns → globF p = .ok ms → f ∈ ms →
      ignores (loadIgnorePatterns gitignoreLines) f = false →
      f ∈ listFilesE globF patterns gitignoreLines) := by
  constructor
  · intro hall
    unfold listFilesE listFiles
    have hflat : (patterns.map (fun p => match globF p with
        | .ok ms => ms
        | .error _ => [])).flatten = [] := by
      rw [List.flatten_eq_nil_iff]
      intro l hl
      obtain ⟨p, hp, rfl⟩ := List.mem_map.mp hl
      obtain ⟨e, he⟩ := hall p hp
      rw [he]
    rw [hflat]
    simp [List.dedup_nil, List.filter_nil, List.mergeSort_nil]
  · intro p ms f hp hok hf hig
    unfold listFilesE
    rw [listFiles_mem]
    refine ⟨List.mem_flatten.mpr ⟨ms, ?_, hf⟩, hig⟩
    refine List.mem_map.mpr ⟨p, hp, ?_⟩
    rw [hok]

/-- Concrete instantiation of `listFilesE_failure_policy`: a pattern that
throws does not stop another pattern from contributing, and all-failing
enumeration returns the empty list. -/
theorem listFilesE_failure_policy_witness :
    "a.txt" ∈ listFilesE
      (fun p => if p = "bad" then .error "EACCES" else .ok ["a.txt"])
      ["bad", "**/*"] [] ∧
    listFilesE (fun _ => .error "EACCES") ["x", "y"] [] = [] := by
  constructor
  · exact (listFilesE_failure_policy
      (fun p => if p = "bad" then .error "EACCES" else .ok ["a.txt"])
      ["bad", "**/*"] []).2 "**/*" ["a.txt"] "a.txt"
      (by decide) (by rfl) (by decide) (by decide)
  · exact (listFilesE_failure_policy (fun _ => .error "EACCES") ["x", "y"] []).1
      (fun p _ => ⟨"EACCES", rfl⟩)

/-- Every built-in default pattern parses to a non-negated rule. -/
theorem defaultPatterns_not_negated :
    ∀ r ∈ defaultPatterns.map parseRule, r.negated = false := by decide

/-- C4 counterexample: `.DS_Store` is excluded by the built-in defaults,
yet a `.gitignore` consisting of the negation line `!.DS_Store` re-includes
it — the later gitignore layer overrides the default — so the path appears
in the discovery output. -/
theorem defaultExclusion_gitignore_counterexample :
    (∃ r ∈ defaultPatterns.map parseRule,
      ruleMatches r (splitSlash ".DS_Store") = true) ∧
    ignores (loadIgnorePatterns ["!.DS_Store"]) ".DS_Store" = false ∧
    ".DS_Store" ∈ listFiles [[".DS_Store"]] ["!.DS_Store"] := by
  refine ⟨by decide, by decide, ?_⟩
  rw [listFiles_mem]
  exact ⟨by decide, by decide⟩

/-- C4 (amended): a path excluded by the built-in default patterns is
excluded from the discovery output provided the version-control ignore
file contributes no negation pattern matching that path (a later negation
layer re-includes it, per ignore-file semantics). -/
theorem listFiles_default_excluded (matchesPerPattern : List (List String))
    (gitignoreLines : List String) (p : String)
    (hdef : ∃ r ∈ defaultPatterns.map parseRule,
      ruleMatches r (splitSlash p) = true)
    (hneg : ∀ r ∈ (gitignoreLines.filter
        (fun l => !(l == "") && !(['#'].isPrefixOf l.data))).map parseRule,
      ruleMatches r (splitSlash p) = true → r.negated = false) :
    p ∉ listFiles matchesPerPattern gitignoreLines := by
  intro hmem
  have hig := ((listFiles_mem matchesPerPattern gitignoreLines p).mp hmem).2
  obtain ⟨r0, hr0mem, hr0match⟩ := hdef
  have hr0rules : r0 ∈ loadIgnorePatterns gitignoreLines := by
    unfold loadIgnorePatterns
    rw [List.map_append]
    exact List.mem_append_left _ hr0mem
  have hr0filtered : r0 ∈ (loadIgnorePatterns gitignoreLines).filter
      (fun r => ruleMatches r (splitSlash p)) :=
    List.mem_filter.mpr ⟨hr0rules, hr0match⟩
  cases hlast : ((loadIgnorePatterns gitignoreLines).filter
      (fun r => ruleMatches r (splitSlash p))).getLast? with
  | none =>
    rw [List.getLast?_eq_none_iff] at hlast
    rw [hlast] at hr0filtered
    cases hr0filtered
  | some r =>
    have hr := List.mem_filter.mp (List.mem_of_getLast?_eq_some hlast)
    have hrneg : r.negated = false := by
      have := hr.1
      unfold loadIgnorePatterns at this
      rw [List.map_append] at this
      rcases List.mem_append.mp this with hdflt | hgit
      · exact defaultPatterns_not_negated r hdflt
      · exact hneg r hgit hr.2
    have : ignores (loadIgnorePatterns gitignoreLines) p = true := by
      unfold ignores
      rw [hlast]
      simp [hrneg]
    rw [hig] at this
    cases this

/-- Concrete instantiation of `listFiles_default_excluded`: with a
gitignore carrying no matching negation, `.DS_Store` never survives
discovery even when glob enumerated it. -/
theorem listFiles_default_excluded_witness :
    ".DS_Store" ∉ listFiles [[".DS_Store", "a.txt"]] ["node_modules/", "*.bak"] :=
  listFiles_default_excluded [[".DS_Store", "a.txt"]] ["node_modules/", "*.bak"]
    ".DS_Store" (by decide) (by decide)

/-! ## Context assembler (`generateContext`, `generateCompletePrompt`) -/

/-- The result record of `generateContext` (the `repoPath` echo of the
working directory is omitted as environment-only data). -/
structure ContextResult where
  output : String
  tokenCount : Nat
  fileCount : Nat
  isOverLimit : Bool
  maxTokens : Nat
  files : List String
  missingFiles : List String
deriving DecidableEq

/-- `generateContext(files, options)` from the source: partition the
requested files by existence, throw if none exist, run the external
`promptcode` subprocess on the existing ones (its failure propagates), and
count tokens over its output. `existsF` is `existsSync` under the
repository root; `promptCode` is the opaque subprocess collaborator. -/
def generateContext (existsF : String → Bool)
    (promptCode : List String → Except String String)
    (tk : String → String → Nat) (files : List String) (encoding : String)
    (maxTokens : Nat) : Except String ContextResult :=
  let resolvedFiles := files.filter (fun f => existsF f)
  let missingFiles := files.filter (fun f => !existsF f)
  if resolvedFiles.length = 0 then
    .error "No valid files to process"
  else
    match promptCode resolvedFiles with
    | .error e => .error e
    | .ok output =>
      let tiktokenCount := tk output encoding
      .ok { output := output,
            tokenCount := tiktokenCount,
            fileCount := resolvedFiles.length,
            isOverLimit := decide (tiktokenCount > maxTokens),
            maxTokens := maxTokens,
            files := resolvedFiles,
            missingFiles := missingFiles }

/-- C3 counterexample: a request list consisting only of a nonexistent
file makes context assembly fail with an error, contradicting the claim
that any list containing a nonexistent file is processed without error. -/
theorem generateContext_all_missing_counterexample :
    generateContext (fun _ => false) (fun _ => .ok "") (fun _ _ => 0)
      ["c.txt"] "cl100k_base" 128000 = .error "No valid files to process" := rfl

/-- C3 (amended): when at least one requested file exists (and the
subprocess collaborator succeeds), context assembly does not fail:
existing files are processed into `files`, missing ones are recorded in
`missingFiles`, and the result is a normal (non-error) value. -/
theorem generateContext_missing_files_partition (existsF : String → Bool)
    (promptCode : List String → Except String String)
    (tk : String → String → Nat) (files : List String) (encoding : String)
    (maxTokens : Nat) (out : String)
    (hsome : ∃ f ∈ files, existsF f = true)
    (hok : promptCode (files.filter (fun f => existsF f)) = .ok out) :
    generateContext existsF promptCode tk files encoding maxTokens =
      .ok { output := out,
            tokenCount := tk out encoding,
            fileCount := (files.filter (fun f => existsF f)).length,
            isOverLimit := decide (tk out encoding > maxTokens),
            maxTokens := maxTokens,
            files := files.filter (fun f => existsF f),
            missingFiles := files.filter (fun f => !existsF f) } := by
  obtain ⟨f, hf, hex⟩ := hsome
  have hne : (files.filter (fun f => existsF f)).length ≠ 0 := by
    have : f ∈ files.filter (fun f => existsF f) :=
      List.mem_filter.mpr ⟨hf, hex⟩
    exact List.length_pos.mpr (List.ne_nil_of_mem this) |>.ne'
  unfold generateContext
  rw [if_neg hne, hok]

/-- Concrete instantiation of `generateContext_missing_files_partition`:
requesting missing `c.txt` alongside existing `a.txt` yields
`files = [a.txt]`, `missingFiles = [c.txt]`, and no error. -/
theorem generateContext_missing_files_partition_witness :
    generateContext (fun f => f == "a.txt") (fun _ => .ok "CTX")
      (fun s _ => s.length) ["a.txt", "c.txt"] "cl100k_base" 128000 =
      .ok { output := "CTX",
            tokenCount := 3,
            fileCount := 1,
            isOverLimit := false,
            maxTokens := 128000,
            files := ["a.txt"],
            missingFiles := ["c.txt"] } := by
  have h := generateContext_missing_files_partition (fun f => f == "a.txt")
    (fun _ => .ok "CTX") (fun s _ => s.length) ["a.txt", "c.txt"]
    "cl100k_base" 128000 "CTX" ⟨"a.txt", by decide, by decide⟩ (by rfl)
  rw [h]
  rfl

/-- The file lines of `formatNode`: every file at this level on its own
connector line, the last one with the closing connector. -/
def formatFiles : List String → String → String
  | [], _ => ""
  | [f], pre => pre ++ "└── " ++ f ++ "\n"
  | f :: rest, pre => pre ++ "├── " ++ f ++ "\n" ++ formatFiles rest pre

mutual

/-- `formatNode` from `formatFileTreeString`: directories of this level
first (each followed by its recursively rendered subtree), then files. -/
def formatNode : TreeNode → String → String
  | .node cs fs, pre => formatEntries cs fs.isEmpty pre ++ formatFiles fs pre

/-- The directory lines of `formatNode`: an entry is last only when it is
the final directory and the level has no files. -/
def formatEntries : List (String × TreeNode) → Bool → String → String
  | [], _, _ => ""
  | (name, sub) :: rest, filesEmpty, pre =>
    let isLastEntry := rest.isEmpty && filesEmpty
    let symbol := if isLastEntry then "└── " else "├── "
    let nextPre := pre ++ (if isLastEntry then "    " else "│   ")
    pre ++ symbol ++ name ++ "/\n" ++ formatNode sub nextPre ++
      formatEntries rest filesEmpty pre

end

/-- `formatFileTreeString(files)` from the source: rebuild the tree by the
same segment walk as `generateFileTree` and render it with no prefix. -/
def formatFileTreeString (files : List String) : String :=
  formatNode (generateFileTree files) ""

/-- A named meta-prompt fragment. -/
structure MetaPrompt where
  name : String
  content : String
deriving DecidableEq

/-- The result record of `generateCompletePrompt`. -/
structure CompletePromptResult where
  prompt : String
  tokenCount : Nat
  fileCount : Nat
  totalFiles : Nat
  metaPromptCount : Nat
deriving DecidableEq

/-- The file-contents loop of `generateCompletePrompt`: each readable
requested file contributes a labeled, fenced block appended in request
order; unreadable or missing files contribute nothing. -/
def fileContentsSection (readF : String → Option String)
    (files : List String) : String :=
  files.foldl (fun acc file =>
    match readF file with
    | some content =>
      acc ++ "File: " ++ file ++ "\n```\n" ++ content ++ "\n```\n\n"
    | none => acc) ""

/-- The meta-prompt loop of `generateCompletePrompt`, carrying the running
1-based display index. -/
def metaSection : Nat → List MetaPrompt → String
  | _, [] => ""
  | i, mp :: rest =>
    "<meta prompt " ++ toString (i + 1) ++ " = \"" ++ mp.name ++ "\">\n" ++
      mp.content ++ "\n</meta prompt " ++ toString (i + 1) ++ ">\n\n" ++
      metaSection (i + 1) rest

/-- `generateCompletePrompt(files, userInstructions, metaPrompts, encoding)`
from the source: discover the full repository list for the rendered tree,
concatenate the file-map, file-contents, meta-prompt and user-instructions
sections into one string, and count its tokens. `readF` is the
existsSync + readFile snapshot; `tk` the external tokenizer. -/
def generateCompletePrompt (matchesPerPattern : List (List String))
    (gitignoreLines : List String) (readF : String → Option String)
    (tk : String → String → Nat) (repoPath : String) (files : List String)
    (userInstructions : String) (metaPrompts : List MetaPrompt)
    (encoding : String) : CompletePromptResult :=
  let allFiles := listFiles matchesPerPattern gitignoreLines
  let fileTreeString := formatFileTreeString allFiles
  let completePrompt :=
    "<file_map>\n" ++ repoPath ++ "\n" ++ fileTreeString ++ "</file_map>\n\n" ++
    ("<file_contents>\n" ++ fileContentsSection readF files ++
      "</file_contents>\n\n") ++
    metaSection 0 metaPrompts ++
    ("<user_instructions>\n" ++ userInstructions ++ "\n</user_instructions>\n")
  { prompt := completePrompt,
    tokenCount := tk completePrompt encoding,
    fileCount := files.length,
    totalFiles := allFiles.length,
    metaPromptCount := metaPrompts.length }

/-- C7: the returned token count is the tokenizer applied exactly once to
the fully concatenated bundle text — file-map section, file-contents
section, meta-prompt sections, user-instructions section — under the
requested encoding; this holds for every tokenizer, so the count is never
assembled from per-fragment sums. -/
theorem generateCompletePrompt_single_tokenization
    (matchesPerPattern : List (List String)) (gitignoreLines : List String)
    (readF : String → Option String) (tk : String → String → Nat)
    (repoPath : String) (files : List String) (userInstructions : String)
    (metaPrompts : List MetaPrompt) (encoding : String) :
    (generateCompletePrompt matchesPerPattern gitignoreLines readF tk repoPath
        files userInstructions metaPrompts encoding).tokenCount =
      tk (generateCompletePrompt matchesPerPattern gitignoreLines readF tk
        repoPath files userInstructions metaPrompts encoding).prompt encoding ∧
    (generateCompletePrompt matchesPerPattern gitignoreLines readF tk repoPath
        files userInstructions metaPrompts encoding).prompt =
      ("<file_map>\n" ++ repoPath ++ "\n" ++
        formatFileTreeString (listFiles matchesPerPattern gitignoreLines) ++
        "</file_map>\n\n") ++
      ("<file_contents>\n" ++ fileContentsSection readF files ++
        "</file_contents>\n\n") ++
      metaSection 0 metaPrompts ++
      ("<user_instructions>\n" ++ userInstructions ++
        "\n</user_instructions>\n") :=
  ⟨rfl, rfl⟩

/-! ## Bounded concurrency executor (`mapWithConcurrency`) -/

/-- `Math.min(limit, Math.max(1, items.length))` — the worker-pool width
spawned by `mapWithConcurrency`. -/
def numWorkers (limit len : Nat) : Nat := min limit (max 1 len)

/-- One worker of `mapWithConcurrency`: about to re-check the loop
condition (`idle`), computing its claimed index (`busy idx`), or returned
from its loop (`done`). -/
inductive WorkerState where
  | idle : WorkerState
  | busy : Nat → WorkerState
  | done : WorkerState
deriving DecidableEq

/-- Shared state of one `mapWithConcurrency` call: the claim counter `i`,
the preallocated results array (outer `none` = cell not yet written; a
written cell holds the task's outcome, inner `none` meaning the task threw
and the sentinel `undefined` was stored), and the worker states. -/
structure ExecState (R : Type) where
  next : Nat
  results : List (Option (Option R))
  workers : List WorkerState

/-- The atomic events of a `mapWithConcurrency` execution, interleaved in
any order by the scheduler. `claim`: an idle worker observes
`i < items.length` and runs `const idx = i++` (atomic between awaits).
`finish`: the awaited task of a busy worker resolves or throws, and the
worker writes its index's cell (`results[idx] = await fn(items[idx])`, or
the sentinel on `catch`) and loops. `exit`: an idle worker observes
`i >= items.length` and leaves the loop. -/
inductive ExecStep {T R : Type} (items : List T) (F : T → Option R) :
    ExecState R → ExecState R → Prop where
  | claim (s : ExecState R) (w : Nat)
      (hw : s.workers[w]? = some .idle) (hlt : s.next < items.length) :
      ExecStep items F s
        ⟨s.next + 1, s.results, s.workers.set w (.busy s.next)⟩
  | finish (s : ExecState R) (w idx : Nat) (t : T)
      (hw : s.workers[w]? = some (.busy idx)) (ht : items[idx]? = some t) :
      ExecStep items F s
        ⟨s.next, s.results.set idx (some (F t)), s.workers.set w .idle⟩
  | exit (s : ExecState R) (w : Nat)
      (hw : s.workers[w]? = some .idle) (hge : items.length ≤ s.next) :
      ExecStep items F s ⟨s.next, s.results, s.workers.set w .done⟩

/-- The initial state of a call: `i = 0`, `new Array(items.length)` of
unwritten cells, and `n` workers spawned into their loops. -/
def execInit (R : Type) (len n : Nat) : ExecState R :=
  ⟨0, List.replicate len none, List.replicate n .idle⟩

/-- `Promise.all(workers)` resolves: every worker has left its loop. -/
def ExecFinal {R : Type} (s : ExecState R) : Prop := ∀ w ∈ s.workers, w = .done

/-- The execution invariant of `mapWithConcurrency`: the results array
keeps its length, the claim counter never passes the item count, busy
workers hold distinct already-claimed indices, every claimed index is
either being computed or already written with its item's outcome, and a
worker exits only once all indices are claimed. -/
structure ExecInv {T R : Type} (items : List T) (F : T → Option R) (n : Nat)
    (s : ExecState R) : Prop where
  res_len : s.results.length = items.length
  wk_len : s.workers.length = n
  next_le : s.next ≤ items.length
  busy_lt : ∀ (w idx : Nat), s.workers[w]? = some (WorkerState.busy idx) →
    idx < s.next
  busy_inj : ∀ (w1 w2 idx : Nat), s.workers[w1]? = some (WorkerState.busy idx) →
    s.workers[w2]? = some (WorkerState.busy idx) → w1 = w2
  filled : ∀ j : Nat, j < s.next →
    (∃ w : Nat, s.workers[w]? = some (WorkerState.busy j)) ∨
    (∃ t, items[j]? = some t ∧ s.results[j]? = some (some (F t)))
  done_ge : ∀ w : Nat, s.workers[w]? = some WorkerState.done →
    items.length ≤ s.next

/-- The invariant holds initially. -/
theorem execInv_init {T R : Type} (items : List T) (F : T → Option R)
    (n : Nat) : ExecInv items F n (execInit R items.length n) := by
  refine ⟨by simp [execInit], by simp [execInit], by simp [execInit],
    ?_, ?_, ?_, ?_⟩
  · intro w idx hw
    rw [execInit, List.getElem?_replicate] at hw
    split at hw
    · cases hw
    · cases hw
  · intro w1 w2 idx hw1 _
    rw [execInit, List.getElem?_replicate] at hw1
    split at hw1
    · cases hw1
    · cases hw1
  · intro j hj
    simp [execInit] at hj
  · intro w hw
    rw [execInit, List.getElem?_replicate] at hw
    split at hw
    · cases hw
    · cases hw

/-- The invariant is preserved by every execution step. -/
theorem ExecInv.step {T R : Type} {items : List T} {F : T → Option R} {n : Nat}
    {s s' : ExecState R} (inv : ExecInv items F n s)
    (hstep : ExecStep items F s s') : ExecInv items F n s' := by
  cases hstep with
  | claim w hw hlt =>
    have hwlt : w < s.workers.length := (List.getElem?_eq_some_iff.mp hw).1
    refine ⟨inv.res_len, by simp [inv.wk_len], hlt, ?_, ?_, ?_, ?_⟩
    · intro w' idx hw'
      by_cases hww : w' = w
      · subst hww
        rw [List.getElem?_set_self hwlt] at hw'
        injection hw' with h
        injection h with h2
        show idx < s.next + 1
        omega
      · rw [List.getElem?_set_ne (fun h => hww h.symm)] at hw'
        exact Nat.lt_succ_of_lt (inv.busy_lt w' idx hw')
    · intro w1 w2 idx h1 h2
      by_cases h1w : w1 = w <;> by_cases h2w : w2 = w
      · rw [h1w, h2w]
      · subst h1w
        rw [List.getElem?_set_self hwlt] at h1
        injection h1 with h
        injection h with h1e
        rw [List.getElem?_set_ne (fun h => h2w h.symm)] at h2
        have := inv.busy_lt w2 idx h2
        omega
      · subst h2w
        rw [List.getElem?_set_self hwlt] at h2
        injection h2 with h
        injection h with h2e
        rw [List.getElem?_set_ne (fun h => h1w h.symm)] at h1
        have := inv.busy_lt w1 idx h1
        omega
      · rw [List.getElem?_set_ne (fun h => h1w h.symm)] at h1
        rw [List.getElem?_set_ne (fun h => h2w h.symm)] at h2
        exact inv.busy_inj w1 w2 idx h1 h2
    · intro j hj
      rcases Nat.lt_succ_iff_lt_or_eq.mp hj with hjlt | hjeq
      · rcases inv.filled j hjlt with ⟨w', hw'⟩ | hres
        · have hww : w' ≠ w := by
            intro h
            rw [h, hw] at hw'
            cases hw'
          exact Or.inl ⟨w', by
            rw [List.getElem?_set_ne (fun h => hww h.symm)]
            exact hw'⟩
        · exact Or.inr hres
      · subst hjeq
        exact Or.inl ⟨w, by rw [List.getElem?_set_self hwlt]⟩
    · intro w' hw'
      by_cases hww : w' = w
      · subst hww
        rw [List.getElem?_set_self hwlt] at hw'
        cases hw'
      · rw [List.getElem?_set_ne (fun h => hww h.symm)] at hw'
        exact Nat.le_succ_of_le (inv.done_ge w' hw')
  | finish w idx t hw ht =>
    have hwlt : w < s.workers.length := (List.getElem?_eq_some_iff.mp hw).1
    have hidxlt : idx < s.next := inv.busy_lt w idx hw
    have hidxres : idx < s.results.length := by
      rw [inv.res_len]
      exact lt_of_lt_of_le hidxlt inv.next_le
    refine ⟨by simp [inv.res_len], by simp [inv.wk_len], inv.next_le,
      ?_, ?_, ?_, ?_⟩
    · intro w' idx' hw'
      by_cases hww : w' = w
      · subst hww
        rw [List.getElem?_set_self hwlt] at hw'
        cases hw'
      · rw [List.getElem?_set_ne (fun h => hww h.symm)] at hw'
        exact inv.busy_lt w' idx' hw'
    · intro w1 w2 idx' h1 h2
      by_cases h1w : w1 = w
      · subst h1w
        rw [List.getElem?_set_self hwlt] at h1
        cases h1
      · by_cases h2w : w2 = w
        · subst h2w
          rw [List.getElem?_set_self hwlt] at h2
          cases h2
        · rw [List.getElem?_set_ne (fun h => h1w h.symm)] at h1
          rw [List.getElem?_set_ne (fun h => h2w h.symm)] at h2
          exact inv.busy_inj w1 w2 idx' h1 h2
    · intro j hj
      rcases inv.filled j hj with ⟨w', hw'⟩ | ⟨t', ht', hres⟩
      · by_cases hww : w' = w
        · subst hww
          rw [hw] at hw'
          injection hw' with h
          injection h with he
          subst he
          refine Or.inr ⟨t, ht, ?_⟩
          rw [List.getElem?_set_self hidxres]
        · exact Or.inl ⟨w', by
            rw [List.getElem?_set_ne (fun h => hww h.symm)]
            exact hw'⟩
      · by_cases hji : j = idx
        · subst hji
          refine Or.inr ⟨t, ht, ?_⟩
          rw [List.getElem?_set_self hidxres]
        · refine Or.inr ⟨t', ht', ?_⟩
          rw [List.getElem?_set_ne (fun h => hji h.symm)]
          exact hres
    · intro w' hw'
      by_cases hww : w' = w
      · subst hww
        rw [List.getElem?_set_self hwlt] at hw'
        cases hw'
      · rw [List.getElem?_set_ne (fun h => hww h.symm)] at hw'
        exact inv.done_ge w' hw'
  | exit w hw hge =>
    have hwlt : w < s.workers.length := (List.getElem?_eq_some_iff.mp hw).1
    refine ⟨inv.res_len, by simp [inv.wk_len], inv.next_le, ?_, ?_, ?_, ?_⟩
    · intro w' idx hw'
      by_cases hww : w' = w
      · subst hww
        rw [List.getElem?_set_self hwlt] at hw'
        cases hw'
      · rw [List.getElem?_set_ne (fun h => hww h.symm)] at hw'
        exact inv.busy_lt w' idx hw'
    · intro w1 w2 idx h1 h2
      by_cases h1w : w1 = w
      · subst h1w
        rw [List.getElem?_set_self hwlt] at h1
        cases h1
      · by_cases h2w : w2 = w
        · subst h2w
          rw [List.getElem?_set_self hwlt] at h2
          cases h2
        · rw [List.getElem?_set_ne (fun h => h1w h.symm)] at h1
          rw [List.getElem?_set_ne (fun h => h2w h.symm)] at h2
          exact inv.busy_inj w1 w2 idx h1 h2
    · intro j hj
      rcases inv.filled j hj with ⟨w', hw'⟩ | hres
      · have hww : w' ≠ w := by
          intro h
          rw [h, hw] at hw'
          cases hw'
        exact Or.inl ⟨w', by
          rw [List.getElem?_set_ne (fun h => hww h.symm)]
          exact hw'⟩
      · exact Or.inr hres
    · intro w' hw'
      by_cases hww : w' = w
      · exact hge
      · rw [List.getElem?_set_ne (fun h => hww h.symm)] at hw'
        exact inv.done_ge w' hw'

/-- The invariant holds in every reachable state. -/
theorem execInv_reachable {T R : Type} (items : List T) (F : T → Option R)
    (n : Nat) (s : ExecState R)
    (hreach : Relation.ReflTransGen (ExecStep items F)
      (execInit R items.length n) s) :
    ExecInv items F n s := by
  induction hreach with
  | refl => exact execInv_init items F n
  | tail _ hstep ih => exact ih.step hstep

/-- When a pool of positive width reaches a final state, the results array
is exactly the input list mapped through the task, cell by cell. -/
theorem execFinal_results {T R : Type} (items : List T) (F : T → Option R)
    (n : Nat) (hn : 1 ≤ n) (s : ExecState R)
    (hreach : Relation.ReflTransGen (ExecStep items F)
      (execInit R items.length n) s)
    (hfinal : ExecFinal s) :
    s.results = items.map (fun t => some (F t)) := by
  have inv := execInv_reachable items F n s hreach
  have hnext : s.next = items.length := by
    cases h0 : s.workers[0]? with
    | none =>
      rw [List.getElem?_eq_none_iff, inv.wk_len] at h0
      omega
    | some st =>
      have hdone : st = .done := hfinal st (List.getElem?_mem h0)
      subst hdone
      exact Nat.le_antisymm inv.next_le (inv.done_ge 0 h0)
  apply List.ext_getElem?
  intro j
  by_cases hj : j < items.length
  · rcases inv.filled j (by omega) with ⟨w, hw⟩ | ⟨t, ht, hres⟩
    · have := hfinal _ (List.getElem?_mem hw)
      cases this
    · rw [hres, List.getElem?_map, ht]
      rfl
  · rw [List.getElem?_eq_none (by rw [inv.res_len]; omega),
      List.getElem?_eq_none (by rw [List.length_map]; omega)]

/-- C5: for every item list, positive concurrency limits and deterministic
task, any complete execution of the worker pool ends with the results
array equal, index by index, to the input list mapped through the task —
in particular executions under two different limits (e.g. 1 and 3) produce
identical output. -/
theorem mapWithConcurrency_order_and_limit_independence {T R : Type}
    (items : List T) (f : T → R) (limit1 limit2 : Nat)
    (h1 : 1 ≤ limit1) (h2 : 1 ≤ limit2) (s1 s2 : ExecState R)
    (hr1 : Relation.ReflTransGen (ExecStep items (fun t => some (f t)))
      (execInit R items.length (numWorkers limit1 items.length)) s1)
    (hf1 : ExecFinal s1)
    (hr2 : Relation.ReflTransGen (ExecStep items (fun t => some (f t)))
      (execInit R items.length (numWorkers limit2 items.length)) s2)
    (hf2 : ExecFinal s2) :
    s1.results = items.map (fun t => some (some (f t))) ∧
    s1.results = s2.results := by
  have hn1 : 1 ≤ numWorkers limit1 items.length :=
    le_min h1 (le_max_left 1 items.length)
  have hn2 : 1 ≤ numWorkers limit2 items.length :=
    le_min h2 (le_max_left 1 items.length)
  have e1 := execFinal_results items (fun t => some (f t)) _ hn1 s1 hr1 hf1
  have e2 := execFinal_results items (fun t => some (f t)) _ hn2 s2 hr2 hf2
  exact ⟨e1, e1.trans e2.symm⟩

/-- C6: a per-item task failure is recorded as the sentinel at exactly that
item's index, successful items keep their results at their own indices,
and in any final (returning) state every cell has been written — one
item's failure aborts neither its siblings nor the call. -/
theorem mapWithConcurrency_failure_sentinel {T R : Type} (items : List T)
    (F : T → Option R) (limit : Nat) (hlim : 1 ≤ limit) (s : ExecState R)
    (hreach : Relation.ReflTransGen (ExecStep items F)
      (execInit R items.length (numWorkers limit items.length)) s)
    (hfinal : ExecFinal s) :
    s.results.length = items.length ∧
    (∀ (j : Nat) (t : T), items[j]? = some t → F t = none →
      s.results[j]? = some (some (none : Option R))) ∧
    (∀ (j : Nat) (t : T) (r : R), items[j]? = some t → F t = some r →
      s.results[j]? = some (some (some r))) ∧
    (∀ j : Nat, j < items.length → s.results[j]? ≠ none) := by
  have hn : 1 ≤ numWorkers limit items.length :=
    le_min hlim (le_max_left 1 items.length)
  have e := execFinal_results items F _ hn s hreach hfinal
  refine ⟨by rw [e, List.length_map], ?_, ?_, ?_⟩
  · intro j t ht hF
    rw [e, List.getElem?_map, ht]
    simp [hF]
  · intro j t r ht hF
    rw [e, List.getElem?_map, ht]
    simp [hF]
  · intro j hj
    rw [e, List.getElem?_map]
    cases h : items[j]? with
    | none =>
      rw [List.getElem?_eq_none_iff] at h
      omega
    | some t => simp

/-- Concrete instantiation of
`mapWithConcurrency_order_and_limit_independence`: a one-worker run
(limit 1) and a two-worker run (limit 3) over `[10, 20]` with the task
`t + 1` end in final states holding the same in-order results. -/
theorem mapWithConcurrency_order_and_limit_independence_witness :
    (⟨2, [some (some 11), some (some 21)],
        [.done]⟩ : ExecState Nat).results =
      List.map (fun t => some (some (t + 1))) [10, 20] ∧
    (⟨2, [some (some 11), some (some 21)],
        [.done]⟩ : ExecState Nat).results =
      (⟨2, [some (some 11), some (some 21)],
        [.done, .done]⟩ : ExecState Nat).results := by
  have hr1 : Relation.ReflTransGen
      (ExecStep [10, 20] (fun t => some (t + 1)))
      (execInit Nat ([10, 20] : List Nat).length (numWorkers 1 2))
      ⟨2, [some (some 11), some (some 21)], [.done]⟩ :=
    .head (.claim _ 0 rfl (by decide))
      (.head (.finish _ 0 0 10 rfl rfl)
        (.head (.claim _ 0 rfl (by decide))
          (.head (.finish _ 0 1 20 rfl rfl)
            (.head (.exit _ 0 rfl (by decide)) .refl))))
  have hr2 : Relation.ReflTransGen
      (ExecStep [10, 20] (fun t => some (t + 1)))
      (execInit Nat ([10, 20] : List Nat).length (numWorkers 3 2))
      ⟨2, [some (some 11), some (some 21)], [.done, .done]⟩ :=
    .head (.claim _ 0 rfl (by decide))
      (.head (.claim _ 1 rfl (by decide))
        (.head (.finish _ 0 0 10 rfl rfl)
          (.head (.finish _ 1 1 20 rfl rfl)
            (.head (.exit _ 0 rfl (by decide))
              (.head (.exit _ 1 rfl (by decide)) .refl)))))
  exact mapWithConcurrency_order_and_limit_independence [10, 20]
    (fun t => t + 1) 1 3 (by decide) (by decide) _ _
    hr1 (by intro w hw; simpa using hw)
    hr2 (by intro w hw; simp at hw; rcases hw with rfl | rfl <;> rfl)

/-- Concrete instantiation of `mapWithConcurrency_failure_sentinel`: over
`[1, 2]` with a task failing exactly on item `1`, the final state holds
the sentinel at index 0 and the result at index 1, with no unwritten cell. -/
theorem mapWithConcurrency_failure_sentinel_witness :
    (⟨2, [some (none : Option Nat), some (some 2)],
        [.done]⟩ : ExecState Nat).results[0]? =
      some (some (none : Option Nat)) ∧
    (⟨2, [some (none : Option Nat), some (some 2)],
        [.done]⟩ : ExecState Nat).results[1]? =
      some (some (some 2)) := by
  have hr : Relation.ReflTransGen
      (ExecStep [1, 2] (fun t => if t = 1 then none else some t))
      (execInit Nat ([1, 2] : List Nat).length (numWorkers 1 2))
      ⟨2, [some (none : Option Nat), some (some 2)], [.done]⟩ :=
    .head (.claim _ 0 rfl (by decide))
      (.head (.finish _ 0 0 1 rfl rfl)
        (.head (.claim _ 0 rfl (by decide))
          (.head (.finish _ 0 1 2 rfl rfl)
            (.head (.exit _ 0 rfl (by decide)) .refl))))
  have h := mapWithConcurrency_failure_sentinel [1, 2]
    (fun t => if t = 1 then none else some t) 1 (by decide) _ hr
    (by intro w hw; simpa using hw)
  exact ⟨h.2.1 0 1 rfl (by decide), h.2.2.1 1 2 2 rfl (by decide)⟩

/-! ## The JS object semantics of `generateFileTree`

The source stores a level's file list under the reserved key `_files` in
the *same* JS object key space as its directory children, so a directory
segment literally named `_files` collides with the reserved key. The
model below keeps that key space: a tree value is a plain object (ordered
own properties) or an array of file names carrying expando properties
(JS arrays accept arbitrary non-index properties); `push`/`forEach` on a
non-array raises `TypeError`, modelled as `Except.error`. Array element
access through numeric-string keys is not modelled: it is unreachable
both in the collision counterexamples below and in the `_files`-free
domain of the amended round-trip. -/
inductive JVal where
  | obj : List (String × JVal) → JVal
  | arr : List String → List (String × JVal) → JVal

/-- JS property read on an ordered own-property list. -/
def getProp : List (String × JVal) → String → Option JVal
  | [], _ => none
  | (k, v) :: rest, key => if k = key then some v else getProp rest key

/-- JS property write: replace in place if the key exists (key order is
preserved), else append (new keys come last in insertion order). -/
def setProp : List (String × JVal) → String → JVal → List (String × JVal)
  | [], key, v => [(key, v)]
  | (k, w) :: rest, key, v =>
    if k = key then (k, v) :: rest else (k, w) :: setProp rest key v

mutual

/-- The `parts.forEach` walk of `generateFileTree` over JS values. Last
segment: `if (!current._files) current._files = []; current._files.push(part)`
— pushing onto an object stored at `_files` throws. Earlier segment:
`if (!current[part]) current[part] = {}; current = current[part]` — on an
array this reads/writes expando properties. -/
def jsInsert : List String → JVal → Except String JVal
  | [], t => .ok t
  | [f], .obj props =>
    match getProp props "_files" with
    | none => .ok (.obj (setProp props "_files" (.arr [f] [])))
    | some (.arr elems eprops) =>
      .ok (.obj (setProp props "_files" (.arr (elems ++ [f]) eprops)))
    | some (.obj _) => .error "TypeError: current._files.push is not a function"
  | [f], .arr elems props =>
    match getProp props "_files" with
    | none => .ok (.arr elems (setProp props "_files" (.arr [f] [])))
    | some (.arr e2 p2) =>
      .ok (.arr elems (setProp props "_files" (.arr (e2 ++ [f]) p2)))
    | some (.obj _) => .error "TypeError: current._files.push is not a function"
  | d :: r :: rs, .obj props =>
    match jsInsertProps (r :: rs) props d with
    | .ok props' => .ok (.obj props')
    | .error e => .error e
  | d :: r :: rs, .arr elems props =>
    match jsInsertProps (r :: rs) props d with
    | .ok props' => .ok (.arr elems props')
    | .error e => .error e
termination_by parts _ => (parts.length, 0)

/-- Descend into (or create) the property `d` of the current value and
insert the remaining segments there. -/
def jsInsertProps (rest : List String) (props : List (String × JVal))
    (d : String) : Except String (List (String × JVal)) :=
  match getProp props d with
  | none =>
    match jsInsert rest (.obj []) with
    | .ok c => .ok (setProp props d c)
    | .error e => .error e
  | some v =>
    match jsInsert rest v with
    | .ok v' => .ok (setProp props d v')
    | .error e => .error e
termination_by (rest.length, 1)

end

mutual

/-- Flattening a JS tree as the rendering reads it: own properties other
than `_files` are the directories (in key order, each contributing its
flattened contents under `name/`), then `node._files || []` is the file
list — `forEach` over an object stored there throws. An array node is
never reached here from trees the builder produces: arrays live only
under the filtered `_files` key. -/
def flattenJS : JVal → Except String (List String)
  | .obj props =>
    match flattenDirs props with
    | .error e => .error e
    | .ok dirs =>
      match getProp props "_files" with
      | none => .ok dirs
      | some (.arr elems _) => .ok (dirs ++ elems)
      | some (.obj _) => .error "TypeError: files.forEach is not a function"
  | .arr _ _ => .error "array node"

/-- The directory entries of a level: every key except `_files`. -/
def flattenDirs : List (String × JVal) → Except String (List String)
  | [] => .ok []
  | (n, v) :: rest =>
    if n = "_files" then flattenDirs rest
    else
      match flattenJS v with
      | .error e => .error e
      | .ok sub =>
        match flattenDirs rest with
        | .error e => .error e
        | .ok rds => .ok (sub.map (fun q => n ++ "/" ++ q) ++ rds)

end

mutual

/-- Decoding a JS tree back into the collision-free skeleton: succeeds
exactly when every `_files` slot holds a plain expando-free array and no
directory child is an array — the shape `generateFileTree` maintains as
long as no path segment is named `_files`. -/
def decode : JVal → Option TreeNode
  | .obj props =>
    match decodeDirs props with
    | none => none
    | some cs =>
      match getProp props "_files" with
      | none => some (.node cs [])
      | some (.arr elems eprops) =>
        if eprops.isEmpty then some (.node cs elems) else none
      | some (.obj _) => none
  | .arr _ _ => none

/-- Decode the directory children: every key except `_files`, in order. -/
def decodeDirs : List (String × JVal) → Option (List (String × TreeNode))
  | [] => some []
  | (n, v) :: rest =>
    if n = "_files" then decodeDirs rest
    else
      match decode v with
      | none => none
      | some c =>
        match decodeDirs rest with
        | none => none
        | some cs => some ((n, c) :: cs)

end

/-- Writing one property leaves every other property unchanged. -/
theorem getProp_setProp_ne (props : List (String × JVal)) (k k' : String)
    (v : JVal) (h : k' ≠ k) :
    getProp (setProp props k v) k' = getProp props k' := by
  induction props with
  | nil =>
    simp only [setProp, getProp]
    rw [if_neg (fun hh => h hh.symm)]
  | cons p rest ih =>
    obtain ⟨pk, pv⟩ := p
    by_cases hp : pk = k
    · subst hp
      simp only [setProp, if_pos rfl, getProp]
      rw [if_neg (fun hh => h hh.symm), if_neg (fun hh => h hh.symm)]
    · simp only [setProp, if_neg hp, getProp]
      by_cases hp' : pk = k'
      · rw [if_pos hp', if_pos hp']
      · rw [if_neg hp', if_neg hp', ih]

/-- Inverting a successful decode of an object node. -/
theorem decode_obj_inv (props : List (String × JVal)) (t : TreeNode)
    (h : decode (.obj props) = some t) :
    ∃ cs fs, decodeDirs props = some cs ∧ t = .node cs fs ∧
      ((getProp props "_files" = none ∧ fs = []) ∨
        getProp props "_files" = some (.arr fs [])) := by
  rw [decode] at h
  cases hds : decodeDirs props with
  | none => rw [hds] at h; cases h
  | some cs =>
    rw [hds] at h
    cases hgf : getProp props "_files" with
    | none =>
      rw [hgf] at h
      injection h with ht
      exact ⟨cs, [], rfl, ht.symm, Or.inl ⟨rfl, rfl⟩⟩
    | some w =>
      rw [hgf] at h
      cases w with
      | obj _ => cases h
      | arr elems eprops =>
        cases eprops with
        | cons _ _ => simp at h
        | nil =>
          simp only [List.isEmpty_nil, if_true] at h
          injection h with ht
          exact ⟨cs, elems, rfl, ht.symm, Or.inr rfl⟩

mutual

/-- A decodable JS tree flattens without throwing, to the flattening of
its decoded skeleton. -/
theorem flattenJS_decode :
    ∀ (j : JVal) (t : TreeNode), decode j = some t →
      flattenJS j = .ok (flattenTree t)
  | .obj props, t, hdec => by
    obtain ⟨cs, fs, hds, ht, hfi⟩ := decode_obj_inv props t hdec
    subst ht
    have hdirs := flattenDirs_decodeDirs props cs hds
    rw [flattenJS, hdirs, flattenTree_node]
    rcases hfi with ⟨hgf, hfs⟩ | hgf
    · subst hfs
      rw [hgf]
      simp
    · rw [hgf]
  | .arr _ _, t, hdec => by rw [decode] at hdec; cases hdec

/-- Decodable directory entries flatten to the clean per-child collection. -/
theorem flattenDirs_decodeDirs :
    ∀ (props : List (String × JVal)) (cs : List (String × TreeNode)),
      decodeDirs props = some cs →
      flattenDirs props =
        .ok (cs.flatMap (fun p => (flattenTree p.2).map (fun q => p.1 ++ "/" ++ q)))
  | [], cs, h => by
    rw [decodeDirs] at h
    injection h with h
    subst h
    rw [flattenDirs]
    rfl
  | (k, v) :: ps, cs, h => by
    by_cases hk : k = "_files"
    · subst hk
      rw [decodeDirs, if_pos rfl] at h
      rw [flattenDirs, if_pos rfl]
      exact flattenDirs_decodeDirs ps cs h
    · rw [decodeDirs, if_neg hk] at h
      cases hv : decode v with
      | none => rw [hv] at h; cases h
      | some c =>
        rw [hv] at h
        cases hds : decodeDirs ps with
        | none => rw [hds] at h; cases h
        | some cs0 =>
          rw [hds] at h
          injection h with h
          subst h
          rw [flattenDirs, if_neg hk, flattenJS_decode v c hv,
            flattenDirs_decodeDirs ps cs0 hds]
          simp

end

